import Mathlib

/-!
Verification development for the bulk file renamer
(`src/cli.py`, `src/src/renamer.py`, `src/src/utils.py`).

Python strings are modelled as `List Char` (sequences of Unicode code
points); the `str.upper` / `str.lower` / `str.title` transforms are
modelled on their ASCII behaviour, which is what the tool's
documentation and examples exercise.  Filesystem enumeration is
modelled by passing the list of regular files of the source directory
as an explicit argument; paths inside the source directory are
identified with their file names.
-/

/-- A file name (or, for the persistence layer, a path string):
a Python string as a list of code points. -/
abbrev Name := List Char

/-! ## utils.py: validation helpers -/

/-- `utils.is_valid_separator` (src/src/utils.py:10): the separator must be
one of `"_"`, `"-"`, `"."`. -/
def is_valid_separator (character : Name) : Bool :=
  character == ['_'] || character == ['-'] || character == ['.']

/-- `utils.is_valid_start_index` (src/src/utils.py:45): start must be > 0. -/
def is_valid_start_index (number_initial : Int) : Bool :=
  decide (0 < number_initial)

/-- `utils.is_valid_padding` (src/src/utils.py:76): padding must be ≥ 0. -/
def is_valid_padding (number_padding : Int) : Bool :=
  decide (0 ≤ number_padding)

/-- `utils.is_valid_case` (src/src/utils.py:104): case must be one of
`"lower"`, `"upper"`, `"title"`. -/
def is_valid_case (str_case : String) : Bool :=
  str_case == "lower" || str_case == "upper" || str_case == "title"

/-- `utils.is_invalid_keep_no_number_combination` (src/src/utils.py:138):
`keep = False` together with `no_number = True` is illegal. -/
def is_invalid_keep_no_number_combination (keep no_number : Bool) : Bool :=
  (!keep) && no_number

/-! ## Decimal rendering of integers: Python `str(index)` and `str.zfill` -/

/-- The decimal digit character for `d % 10`. -/
def digitChar (d : Nat) : Char :=
  match d % 10 with
  | 0 => '0' | 1 => '1' | 2 => '2' | 3 => '3' | 4 => '4'
  | 5 => '5' | 6 => '6' | 7 => '7' | 8 => '8' | _ => '9'

/-- Fuel-driven decimal rendering of a natural number (most significant
digit first); `fuel` bounds the recursion depth. -/
def natStrAux : Nat → Nat → Name
  | 0, _ => []
  | fuel + 1, n => if n < 10 then [digitChar n] else natStrAux fuel (n / 10) ++ [digitChar n]
  -- fuel `n` suffices to render `n` because `n / 10 < n` when `10 ≤ n`

/-- Decimal rendering of a natural number, as Python `str` produces it. -/
def natStr (n : Nat) : Name := natStrAux (n + 1) n

/-- Python `str(i)` for an `int`: optional minus sign plus decimal digits. -/
def intStr (i : Int) : Name :=
  if i < 0 then '-' :: natStr (-i).toNat else natStr i.toNat

/-- Python `str.zfill(width)`: left-pad with `'0'` up to `width`,
keeping a leading sign in front of the padding. -/
def zfill (s : Name) (width : Nat) : Name :=
  if width ≤ s.length then s
  else
    match s with
    | [] => List.replicate width '0'
    | c :: rest =>
      if c = '+' ∨ c = '-' then
        c :: (List.replicate (width - s.length) '0' ++ rest)
      else
        List.replicate (width - s.length) '0' ++ s

/-- `str(index).zfill(padding)` as used in `buil_rename_plan`
(src/src/renamer.py:111); a negative padding pads nothing, like Python. -/
def indexStr (index : Int) (padding : Int) : Name :=
  zfill (intStr index) padding.toNat

/-- Decimal value of a digit string (leading zeros ignored). -/
def parseNat (s : Name) : Nat :=
  s.foldl (fun a c => 10 * a + (c.toNat - 48)) 0

/-! ## Case transforms: Python `str.upper`, `str.lower`, `str.title` (ASCII) -/

/-- Python `str.upper` on ASCII: uppercase every letter. -/
def upperStr (s : Name) : Name := s.map Char.toUpper

/-- Python `str.lower` on ASCII: lowercase every letter. -/
def lowerStr (s : Name) : Name := s.map Char.toLower

/-- Helper for `str.title`: `prev` records whether the previous character
was cased (a letter); the first letter of each run of letters is
uppercased, the following letters lowercased, other characters kept. -/
def titleAux : Bool → Name → Name
  | _, [] => []
  | prev, c :: cs =>
    (if c.isAlpha then (if prev then c.toLower else c.toUpper) else c)
      :: titleAux c.isAlpha cs

/-- Python `str.title` on ASCII. -/
def titleStr (s : Name) : Name := titleAux false s

/-- The `match(case)` dispatch of `buil_rename_plan`
(src/src/renamer.py:113-116): `"upper"` and `"title"` are recognised,
every other string falls through to the lowercase default branch. -/
def applyCase (case : String) (s : Name) : Name :=
  match case with
  | "upper" => upperStr s
  | "title" => titleStr s
  | _ => lowerStr s

/-! ## pathlib: `Path.stem` and `Path.suffix` -/

/-- The characters strictly after the last `'.'` of the name, reversed
(the whole reversed name when there is no dot). -/
def revTail (name : Name) : Name :=
  name.reverse.takeWhile (fun c => !(c == '.'))

/-- Whether pathlib treats the name as having an extension: the last dot
exists and is neither the first nor the last character. -/
def hasExt (name : Name) : Bool :=
  decide (0 < (revTail name).length ∧ (revTail name).length + 1 < name.length)

/-- `pathlib.PurePath.suffix`: the extension from the last dot on, empty
when the last dot is absent, leading, or trailing. -/
def suffixOf (name : Name) : Name :=
  if hasExt name then '.' :: (revTail name).reverse else []

/-- `pathlib.PurePath.stem`: the name without its `suffixOf` extension. -/
def stemOf (name : Name) : Name :=
  if hasExt name then name.take (name.length - 1 - (revTail name).length) else name

/-! ## utils.py: embedded-number extraction and sorting -/

/-- The first maximal run of decimal digits of a string, if any
(the `re.search(r"\d+", ...)` match in `extract_embedded_number`). -/
def firstDigitRun : Name → Option Name
  | [] => none
  | c :: rest =>
    if c.isDigit then some (c :: rest.takeWhile Char.isDigit)
    else firstDigitRun rest

/-- `utils.extract_embedded_number` (src/src/utils.py:174): the integer
value of the first digit run of the stem, `-1` when the stem has none. -/
def extract_embedded_number (name : Name) : Int :=
  match firstDigitRun (stemOf name) with
  | none => -1
  | some run => (parseNat run : Int)

/-- A regular file of the source directory: its name plus the stat
metadata the sort criteria may read. -/
structure FileEntry where
  name : Name
  mtime : Int
  ctime : Int
deriving DecidableEq, Repr

/-- Lexicographic (code-point) `≤` on strings, as Python compares `str`. -/
def lexLeB : Name → Name → Bool
  | [], _ => true
  | _ :: _, [] => false
  | a :: as, b :: bs =>
    if a.toNat < b.toNat then true
    else if b.toNat < a.toNat then false
    else lexLeB as bs

/-- Sort key order for `order="name"`. -/
def name_le (a b : FileEntry) : Prop := lexLeB a.name b.name = true

/-- Sort key order for `order="mtime"`. -/
def mtime_le (a b : FileEntry) : Prop := a.mtime ≤ b.mtime

/-- Sort key order for `order="ctime"`. -/
def ctime_le (a b : FileEntry) : Prop := a.ctime ≤ b.ctime

/-- Sort key order for `order="embedded"`. -/
def embedded_le (a b : FileEntry) : Prop :=
  extract_embedded_number a.name ≤ extract_embedded_number b.name

instance : DecidableRel name_le := fun _a _b => instDecidableEqBool _ _
instance : DecidableRel mtime_le := fun _a _b => Int.decLe _ _
instance : DecidableRel ctime_le := fun _a _b => Int.decLe _ _
instance : DecidableRel embedded_le := fun _a _b => Int.decLe _ _

/-- `utils.sort_files` (src/src/utils.py:207): Python's `sorted` is the
unique stable sort by the given key, modelled by insertion sort with the
non-strict key order; an unsupported criterion raises `ValueError`. -/
def sort_files (list_files : List FileEntry) (order : String) :
    Except String (List FileEntry) :=
  match order with
  | "name" => .ok (list_files.insertionSort name_le)
  | "mtime" => .ok (list_files.insertionSort mtime_le)
  | "ctime" => .ok (list_files.insertionSort ctime_le)
  | "embedded" => .ok (list_files.insertionSort embedded_le)
  | _ => .error ("Unsupported order: " ++ order)

/-! ## renamer.py: the plan builder -/

/-- The body of the `for item in ordered_files` loop of
`buil_rename_plan` (src/src/renamer.py:105-122): build the component
list, apply the case transform to every component, join with the
separator, and append the original extension. `pref` is the `prefix`
parameter of the Python function. -/
def targetName (pref sep : Name) (case : String) (keep no_number : Bool)
    (padding : Int) (item : FileEntry) (index : Int) : Name :=
  let parts : List Name :=
    (if pref ≠ [] then [pref] else [])
      ++ (if keep then [stemOf item.name] else [])
      ++ (if !no_number then [indexStr index padding] else [])
  List.intercalate sep (parts.map (applyCase case)) ++ suffixOf item.name

/-- The loop of `buil_rename_plan`: one plan entry per ordered file, the
index incremented by one per file. -/
def buildPlanAux (pref sep : Name) (case : String) (keep no_number : Bool)
    (padding : Int) : List FileEntry → Int → List (Name × Name)
  | [], _ => []
  | item :: rest, index =>
    (item.name, targetName pref sep case keep no_number padding item index)
      :: buildPlanAux pref sep case keep no_number padding rest (index + 1)

/-- `renamer.buil_rename_plan` (src/src/renamer.py:19-124) on the list of
regular files of the source directory.  The configuration validation of
the docstring is commented out in the source (lines 85-94), so the only
error path left is the unsupported-order error of `sort_files`; the plan
is the insertion-ordered dict, modelled as an association list.  `pref`
is the `prefix` parameter of the Python function. -/
def buil_rename_plan (files : List FileEntry) (order : String)
    (pref sep : Name) (start : Int) (padding : Int) (case : String)
    (keep no_number : Bool) : Except String (List (Name × Name)) :=
  match sort_files files order with
  | .error e => .error e
  | .ok ordered_files =>
    .ok (buildPlanAux pref sep case keep no_number padding ordered_files start)

/-! ## renamer.py: the two-phase transaction executor

The directory is modelled as the finite set of file names it contains.
`os.rename` on POSIX moves `old` to `new`, silently replacing an
existing `new`, and fails when `old` does not exist.  The
`uuid.uuid4().hex` values are modelled as an explicit supply
`uuids : Nat → Name` (one per staged entry, in staging order); their
uniqueness is a hypothesis of the theorems, matching the practical
uniqueness of UUIDs. -/

/-- A failed rename: the path that could not be renamed, together with
the directory contents at the moment of failure (the state the real
filesystem is left in when the exception propagates). -/
structure RenameError where
  failed : Name
  fsAtFailure : Finset Name
deriving DecidableEq

/-- `Path.rename` / `os.rename` (POSIX): fails iff `old` is absent,
replaces `new` if it exists. -/
def osRename (old new : Name) (fs : Finset Name) : Option (Finset Name) :=
  if old ∈ fs then some (insert new (fs.erase old)) else none

/-- The temporary sibling name `f"{old.name}.{uuid4().hex}.tmp"`
(src/src/renamer.py:155). -/
def tempName (old u : Name) : Name := old ++ '.' :: (u ++ ('.' :: ['t', 'm', 'p']))

/-- The temporary names the stage phase will use for a list of entries,
starting at supply position `k`. -/
def tempNames (uuids : Nat → Name) : Nat → List (Name × Name) → List Name
  | _, [] => []
  | k, (old, _) :: rest => tempName old (uuids k) :: tempNames uuids (k + 1) rest

/-- The first loop of `rename_run` (src/src/renamer.py:154-157): rename
every `old` to its unique temporary sibling, recording `temp ↦ new`;
the first failing rename aborts the run. -/
def stagePhase (uuids : Nat → Name) :
    List (Name × Name) → Nat → Finset Name →
    Except RenameError (Finset Name × List (Name × Name))
  | [], _, fs => .ok (fs, [])
  | (old, new) :: rest, k, fs =>
    match osRename old (tempName old (uuids k)) fs with
    | none => .error ⟨old, fs⟩
    | some fs1 =>
      match stagePhase uuids rest (k + 1) fs1 with
      | .error e => .error e
      | .ok (fs2, temp_map) => .ok (fs2, (tempName old (uuids k), new) :: temp_map)

/-- The second loop of `rename_run` (src/src/renamer.py:159-160): rename
every temporary to its final target. -/
def commitPhase : List (Name × Name) → Finset Name → Except RenameError (Finset Name)
  | [], fs => .ok fs
  | (old, new) :: rest, fs =>
    match osRename old new fs with
    | none => .error ⟨old, fs⟩
    | some fs1 => commitPhase rest fs1

/-- `renamer.rename_run` (src/src/renamer.py:126-160): stage every source
file to a temporary sibling, then commit every temporary to its target. -/
def rename_run (plan : List (Name × Name)) (uuids : Nat → Name)
    (fs : Finset Name) : Except RenameError (Finset Name) :=
  match stagePhase uuids plan 0 fs with
  | .error e => .error e
  | .ok (fs1, temp_map) => commitPhase temp_map fs1

/-- `renamer.reverse_rename_run` (src/src/renamer.py:162-197): the same
two loops with the roles of `old` and `new` swapped (stage `new` to a
temporary derived from `new`, then commit it to `old`). -/
def reverse_rename_run (plan : List (Name × Name)) (uuids : Nat → Name)
    (fs : Finset Name) : Except RenameError (Finset Name) :=
  rename_run (plan.map (fun p => (p.2, p.1))) uuids fs

/-! ## Plan persistence: utils.save_rename_plan_json and the cli.py load

`save_rename_plan_json` (src/src/utils.py:283) writes the JSON object
`{str(k): str(v) for k, v in rename_plan.items()}`; the reverse-run
branch of `cli_run` (src/cli.py:191-194) reads it back with `json.load`
and rebuilds `{Path(old): Path(new)}`.  The JSON text encoding is the
external persistence collaborator of spec §4.5 and `json.dump` /
`json.load` are mutually inverse on flat string-to-string objects, so
the record is modelled at the document level: an association list of
string pairs.  What remains in scope — and is what the round-trip claim
is about — is the `str(Path)` / `Path(str)` conversion on both sides,
modelled faithfully after `pathlib.PurePosixPath`. -/

/-- A parsed `pathlib` path: the number of root slashes (0 for a
relative path, 1 for `/`, 2 for the POSIX-special `//`) and the
non-empty, non-`"."` components. -/
structure PyPath where
  root : Nat
  parts : List Name
deriving DecidableEq, Repr

/-- Python `str.split(sep)` for a single-character separator. -/
def splitOnChar (sep : Char) : Name → List Name
  | [] => [[]]
  | c :: rest =>
    match splitOnChar sep rest with
    | [] => if c = sep then [[], []] else [[c]]
    | a :: as => if c = sep then [] :: a :: as else (c :: a) :: as

/-- `pathlib.PurePosixPath(s)`: count the leading slashes (exactly two
give the special `//` root, any other positive number give `/`), split
the rest on `/`, and drop empty and `"."` components. -/
def parsePath (s : Name) : PyPath :=
  { root :=
      match (s.takeWhile (fun c => c == '/')).length with
      | 0 => 0
      | 2 => 2
      | _ => 1
    parts := (splitOnChar '/' s).filter (fun seg => !(seg == []) && !(seg == ['.'])) }

/-- `str(PurePosixPath)`: the root slashes followed by the components
joined with `/`; the empty relative path renders as `"."`. -/
def renderPath (p : PyPath) : Name :=
  if p.root = 0 ∧ p.parts = [] then ['.']
  else List.replicate p.root '/' ++ List.intercalate ['/'] p.parts

/-- A `PyPath` that `parsePath` can produce: at most two root slashes and
components that are non-empty, are not `"."`, and contain no slash. -/
def WFPath (p : PyPath) : Prop :=
  p.root ≤ 2 ∧ ∀ seg ∈ p.parts, seg ≠ [] ∧ seg ≠ ['.'] ∧ '/' ∉ seg

instance : DecidablePred WFPath := fun p => by unfold WFPath; infer_instance

/-- `utils.save_rename_plan_json` (src/src/utils.py:283-315): the stored
JSON document `{str(k): str(v) for k, v in rename_plan.items()}`,
modelled as the association list of rendered path strings. -/
def save_rename_plan_json (rename_plan : List (PyPath × PyPath)) : List (Name × Name) :=
  rename_plan.map (fun p => (renderPath p.1, renderPath p.2))

/-- The plan-loading step of `cli_run` (src/cli.py:191-194):
`{Path(old): Path(new) for old, new in data.items()}`. -/
def cli_load_backup (data : List (Name × Name)) : List (PyPath × PyPath) :=
  data.map (fun p => (parsePath p.1, parsePath p.2))

/-! ## Lemmas: decimal digit strings -/

/-- The ten decimal digit characters. -/
def decDigits : List Char := ['0', '1', '2', '3', '4', '5', '6', '7', '8', '9']

theorem digitChar_mem (d : Nat) : digitChar d ∈ decDigits := by
  unfold digitChar
  split <;> decide

theorem digitChar_val (d : Nat) : (digitChar d).toNat - 48 = d % 10 := by
  have h : d % 10 < 10 := Nat.mod_lt _ (by norm_num)
  unfold digitChar
  generalize hm : d % 10 = m at h ⊢
  interval_cases m <;> decide

theorem natStrAux_mem {fuel n : Nat} : ∀ c ∈ natStrAux fuel n, c ∈ decDigits := by
  induction fuel generalizing n with
  | zero => intro c hc; simp [natStrAux] at hc
  | succ fuel ih =>
    intro c hc
    unfold natStrAux at hc
    split at hc
    · simp at hc; subst hc; exact digitChar_mem n
    · rcases List.mem_append.mp hc with h | h
      · exact ih c h
      · simp at h; subst h; exact digitChar_mem n

theorem natStrAux_succ_fuel (fuel n : Nat) :
    natStrAux (fuel + 1) n = if n < 10 then [digitChar n]
      else natStrAux fuel (n / 10) ++ [digitChar n] := rfl

theorem natStrAux_ne_nil {fuel n : Nat} (h : 0 < fuel) : natStrAux fuel n ≠ [] := by
  cases fuel with
  | zero => omega
  | succ fuel =>
    unfold natStrAux
    split
    · simp
    · simp

theorem parseNat_append_digit (l : Name) (c : Char) :
    parseNat (l ++ [c]) = 10 * parseNat l + (c.toNat - 48) := by
  simp [parseNat, List.foldl_append]

theorem parseNat_natStrAux : ∀ fuel n, n < fuel → parseNat (natStrAux fuel n) = n := by
  intro fuel
  induction fuel with
  | zero => omega
  | succ fuel ih =>
    intro n hn
    unfold natStrAux
    split
    · next h =>
      simp [parseNat]
      have := digitChar_val n
      omega
    · next h =>
      rw [parseNat_append_digit]
      have h10 : 10 ≤ n := by omega
      have hdiv : n / 10 < fuel := by
        have : n / 10 < n := Nat.div_lt_self (by omega) (by norm_num)
        omega
      rw [ih _ hdiv, digitChar_val n]
      omega

theorem parseNat_natStr (n : Nat) : parseNat (natStr n) = n :=
  parseNat_natStrAux (n + 1) n (by omega)

theorem natStr_mem {n : Nat} : ∀ c ∈ natStr n, c ∈ decDigits := natStrAux_mem

theorem natStr_ne_nil (n : Nat) : natStr n ≠ [] := natStrAux_ne_nil (by omega)

theorem parseNat_replicate_zero (k : Nat) (l : Name) :
    parseNat (List.replicate k '0' ++ l) = parseNat l := by
  induction k with
  | zero => simp
  | succ k ih => simpa [parseNat, List.replicate_succ] using ih

theorem decDigit_not_sign {c : Char} (h : c ∈ decDigits) : ¬(c = '+' ∨ c = '-') := by
  fin_cases h <;> decide

theorem intStr_of_pos {i : Int} (h : 1 ≤ i) : intStr i = natStr i.toNat := by
  unfold intStr
  rw [if_neg (by omega)]

theorem indexStr_pos_eq {i : Int} (h : 1 ≤ i) (p : Int) :
    indexStr i p =
      List.replicate (p.toNat - (natStr i.toNat).length) '0' ++ natStr i.toNat := by
  obtain ⟨d, rest, hs⟩ := List.exists_cons_of_ne_nil (natStr_ne_nil i.toNat)
  have hd : d ∈ decDigits := natStr_mem d (by rw [hs]; exact List.mem_cons_self _ _)
  unfold indexStr zfill
  rw [intStr_of_pos h]
  by_cases hw : p.toNat ≤ (natStr i.toNat).length
  · rw [if_pos hw]
    have h0 : p.toNat - (natStr i.toNat).length = 0 := by omega
    rw [h0]
    simp
  · rw [if_neg hw, hs]
    dsimp only
    rw [if_neg (decDigit_not_sign hd), ← hs]

theorem indexStr_mem {i : Int} (h : 1 ≤ i) (p : Int) :
    ∀ c ∈ indexStr i p, c ∈ decDigits := by
  intro c hc
  rw [indexStr_pos_eq h p] at hc
  rcases List.mem_append.mp hc with h' | h'
  · rw [List.eq_of_mem_replicate h']; decide
  · exact natStr_mem c h'

theorem parseNat_indexStr {i : Int} (h : 1 ≤ i) (p : Int) :
    parseNat (indexStr i p) = i.toNat := by
  rw [indexStr_pos_eq h p, parseNat_replicate_zero, parseNat_natStr]

theorem indexStr_inj {i j : Int} (hi : 1 ≤ i) (hj : 1 ≤ j) (p : Int)
    (h : indexStr i p = indexStr j p) : i = j := by
  have h1 := parseNat_indexStr hi p
  have h2 := parseNat_indexStr hj p
  rw [h] at h1
  omega

theorem indexStr_ne_nil {i : Int} (h : 1 ≤ i) (p : Int) : indexStr i p ≠ [] := by
  rw [indexStr_pos_eq h p]
  intro hc
  rcases List.append_eq_nil.mp hc with ⟨_, h2⟩
  exact natStr_ne_nil _ h2

theorem indexStr_no_dot {i : Int} (h : 1 ≤ i) (p : Int) : '.' ∉ indexStr i p := by
  intro hc
  have h2 : ('.' : Char) ∈ decDigits := indexStr_mem h p '.' hc
  exact absurd h2 (by decide)

/-! ## Lemmas: pathlib suffix structure -/

theorem takeWhile_mem {p : Char → Bool} : ∀ {l : Name}, ∀ c ∈ l.takeWhile p, p c = true := by
  intro l
  induction l with
  | nil => intro c hc; simp [List.takeWhile] at hc
  | cons a l ih =>
    intro c hc
    rw [List.takeWhile_cons] at hc
    split at hc
    · rcases List.mem_cons.mp hc with rfl | h
      · assumption
      · exact ih c h
    · simp at hc

theorem takeWhile_append_stop {p : Char → Bool} {y : Char} (xs ys : Name)
    (hxs : ∀ c ∈ xs, p c = true) (hy : p y = false) :
    (xs ++ y :: ys).takeWhile p = xs := by
  induction xs with
  | nil => simp [List.takeWhile_cons, hy]
  | cons a xs ih =>
    rw [List.cons_append, List.takeWhile_cons, if_pos (hxs a (by simp))]
    rw [ih (fun c hc => hxs c (by simp [hc]))]

/-- Every pathlib suffix is empty or a dot followed by a non-empty,
dot-free tail. -/
theorem suffixOf_cases (name : Name) :
    suffixOf name = [] ∨
      ∃ r, suffixOf name = '.' :: r ∧ r ≠ [] ∧ '.' ∉ r := by
  unfold suffixOf
  by_cases h : hasExt name = true
  · rw [if_pos h]
    right
    refine ⟨(revTail name).reverse, rfl, ?_, ?_⟩
    · unfold hasExt at h
      simp only [decide_eq_true_eq] at h
      intro hc
      rw [List.reverse_eq_nil_iff] at hc
      rw [hc] at h
      simp at h
    · intro hc
      have := takeWhile_mem _ (List.mem_reverse.mp hc)
      simp at this
  · rw [if_neg h]
    left
    rfl

/-- The suffix of `base ++ "." ++ r` is `"." ++ r` whenever `base` is
non-empty and `r` is a non-empty dot-free extension tail. -/
theorem suffixOf_append {base r : Name} (hbase : base ≠ []) (hr : r ≠ [])
    (hdot : '.' ∉ r) : suffixOf (base ++ '.' :: r) = '.' :: r := by
  have htail : revTail (base ++ '.' :: r) = r.reverse := by
    unfold revTail
    rw [List.reverse_append, List.reverse_cons]
    rw [List.append_assoc]
    exact takeWhile_append_stop r.reverse (base.reverse)
      (fun c hc => by
        simp only [Bool.not_eq_true']
        rw [beq_eq_false_iff_ne]
        intro hceq
        exact hdot (hceq ▸ List.mem_reverse.mp hc))
      (by simp)
  have hlen : (base ++ '.' :: r).length = base.length + 1 + r.length := by
    simp [List.length_append]
    omega
  have hext : hasExt (base ++ '.' :: r) = true := by
    unfold hasExt
    rw [htail, hlen]
    simp only [List.length_reverse, decide_eq_true_eq]
    constructor
    · cases r with
      | nil => exact absurd rfl hr
      | cons a l => simp
    · have : 1 ≤ base.length := by
        cases base with
        | nil => exact absurd rfl hbase
        | cons a l => simp
      omega
  unfold suffixOf
  rw [if_pos hext, htail, List.reverse_reverse]

/-- Splitting at the first dot is unambiguous when the front parts are
dot-free. -/
theorem dotless_split {xs ys r1 r2 : Name} (hxs : '.' ∉ xs) (hys : '.' ∉ ys)
    (h : xs ++ '.' :: r1 = ys ++ '.' :: r2) : xs = ys ∧ r1 = r2 := by
  induction xs generalizing ys with
  | nil =>
    cases ys with
    | nil => simp at h; simp [h]
    | cons b ys' =>
      simp only [List.nil_append, List.cons_append, List.cons.injEq] at h
      exact absurd (h.1 ▸ List.mem_cons_self b ys') (fun hm => hys (by rw [← h.1]; exact List.mem_cons_self _ _))
  | cons a xs' ih =>
    cases ys with
    | nil =>
      simp only [List.nil_append, List.cons_append, List.cons.injEq] at h
      exact absurd (h.1 ▸ List.mem_cons_self a xs') (fun _ => hxs (h.1 ▸ List.mem_cons_self _ _))
    | cons b ys' =>
      simp only [List.cons_append, List.cons.injEq] at h
      obtain ⟨rfl, h2⟩ := h
      have := ih (fun hm => hxs (List.mem_cons_of_mem _ hm))
        (fun hm => hys (List.mem_cons_of_mem _ hm)) h2
      exact ⟨by rw [this.1], this.2⟩

/-! ## Lemmas: the case transforms fix digit strings -/

theorem decDigit_toUpper : ∀ c ∈ decDigits, c.toUpper = c := by decide

theorem decDigit_toLower : ∀ c ∈ decDigits, c.toLower = c := by decide

theorem decDigit_not_alpha : ∀ c ∈ decDigits, c.isAlpha = false := by decide

theorem map_fix {f : Char → Char} {s : Name} (h : ∀ c ∈ s, f c = c) :
    s.map f = s := by
  induction s with
  | nil => rfl
  | cons a l ih =>
    simp only [List.map_cons, h a (List.mem_cons_self a l),
      ih (fun c hc => h c (List.mem_cons_of_mem a hc))]

theorem titleAux_fix {s : Name} (h : ∀ c ∈ s, c.isAlpha = false) :
    ∀ p, titleAux p s = s := by
  induction s with
  | nil => intro p; rfl
  | cons a l ih =>
    intro p
    unfold titleAux
    rw [h a (List.mem_cons_self a l)]
    simp only [Bool.false_eq_true, if_false]
    rw [ih (fun c hc => h c (List.mem_cons_of_mem a hc))]

theorem applyCase_digits {s : Name} (h : ∀ c ∈ s, c ∈ decDigits)
    (case : String) : applyCase case s = s := by
  unfold applyCase
  split
  · exact map_fix (fun c hc => decDigit_toUpper c (h c hc))
  · exact titleAux_fix (fun c hc => decDigit_not_alpha c (h c hc)) false
  · exact map_fix (fun c hc => decDigit_toLower c (h c hc))

/-! ## Lemmas: structure of the built target names when `keep = false` -/

theorem intercalate_singleton (s a : Name) : List.intercalate s [a] = a := by
  simp [List.intercalate]

theorem intercalate_pair (s a b : Name) :
    List.intercalate s [a, b] = a ++ s ++ b := by
  simp [List.intercalate, List.intersperse]

/-- The constant front part of every target name when the original stem
is not kept: the case-transformed prefix plus the separator, or nothing. -/
def preJoin (pref sep : Name) (case : String) : Name :=
  if pref = [] then [] else applyCase case pref ++ sep

theorem targetName_keep_false (pref sep : Name) (case : String)
    (padding : Int) (it : FileEntry) {i : Int} (hi : 1 ≤ i) :
    targetName pref sep case false false padding it i =
      preJoin pref sep case ++ (indexStr i padding ++ suffixOf it.name) := by
  have hnum := applyCase_digits (indexStr_mem hi padding) case
  by_cases h : pref = []
  · simp [targetName, preJoin, h, hnum, intercalate_singleton]
  · simp [targetName, preJoin, h, hnum, intercalate_pair, List.append_assoc]

theorem targetName_inj_keep_false {pref sep : Name} {case : String}
    {padding : Int} {it1 it2 : FileEntry} {i j : Int} (hi : 1 ≤ i) (hj : 1 ≤ j)
    (h : targetName pref sep case false false padding it1 i =
      targetName pref sep case false false padding it2 j) : i = j := by
  rw [targetName_keep_false pref sep case padding it1 hi,
    targetName_keep_false pref sep case padding it2 hj] at h
  have h2 := List.append_cancel_left h
  rcases suffixOf_cases it1.name with hs1 | ⟨r1, hs1, hr1, hd1⟩ <;>
    rcases suffixOf_cases it2.name with hs2 | ⟨r2, hs2, hr2, hd2⟩
  · rw [hs1, hs2, List.append_nil, List.append_nil] at h2
    exact indexStr_inj hi hj padding h2
  · rw [hs1, hs2, List.append_nil] at h2
    have hmem : '.' ∈ indexStr i padding := by
      rw [h2]
      exact List.mem_append.mpr (Or.inr (List.mem_cons_self _ _))
    exact absurd hmem (indexStr_no_dot hi padding)
  · rw [hs1, hs2, List.append_nil] at h2
    have hmem : '.' ∈ indexStr j padding := by
      rw [← h2]
      exact List.mem_append.mpr (Or.inr (List.mem_cons_self _ _))
    exact absurd hmem (indexStr_no_dot hj padding)
  · rw [hs1, hs2] at h2
    exact indexStr_inj hi hj padding
      (dotless_split (indexStr_no_dot hi padding) (indexStr_no_dot hj padding) h2).1

/-! ## Lemmas: the plan-building loop -/

theorem buildPlanAux_map_fst (pref sep : Name) (case : String)
    (keep no_number : Bool) (padding : Int) :
    ∀ (items : List FileEntry) (idx : Int),
      (buildPlanAux pref sep case keep no_number padding items idx).map Prod.fst
        = items.map FileEntry.name := by
  intro items
  induction items with
  | nil => intro idx; rfl
  | cons it rest ih => intro idx; simp [buildPlanAux, ih]

theorem buildPlanAux_snd_mem {pref sep : Name} {case : String}
    {keep no_number : Bool} {padding : Int} :
    ∀ {items : List FileEntry} {idx : Int} {x : Name},
      x ∈ (buildPlanAux pref sep case keep no_number padding items idx).map Prod.snd →
      ∃ j it, idx ≤ j ∧ it ∈ items ∧
        x = targetName pref sep case keep no_number padding it j := by
  intro items
  induction items with
  | nil => intro idx x hx; simp [buildPlanAux] at hx
  | cons it rest ih =>
    intro idx x hx
    simp only [buildPlanAux, List.map_cons, List.mem_cons] at hx
    rcases hx with rfl | hx
    · exact ⟨idx, it, le_refl idx, List.mem_cons_self _ _, rfl⟩
    · obtain ⟨j, it', hj, hmem, hx⟩ := ih hx
      exact ⟨j, it', by omega, List.mem_cons_of_mem _ hmem, hx⟩

theorem buildPlanAux_snd_nodup (pref sep : Name) (case : String)
    (padding : Int) :
    ∀ (items : List FileEntry) (idx : Int), 1 ≤ idx →
      ((buildPlanAux pref sep case false false padding items idx).map Prod.snd).Nodup := by
  intro items
  induction items with
  | nil => intro idx _; simp [buildPlanAux]
  | cons it rest ih =>
    intro idx hidx
    simp only [buildPlanAux, List.map_cons]
    rw [List.nodup_cons]
    refine ⟨?_, ih (idx + 1) (by omega)⟩
    intro hmem
    obtain ⟨j, it', hj, _, hx⟩ := buildPlanAux_snd_mem hmem
    have := targetName_inj_keep_false hidx (by omega) hx
    omega

/-! ## Lemmas: inverting the builder -/

theorem sort_files_perm {files out : List FileEntry} {order : String}
    (h : sort_files files order = .ok out) : out.Perm files := by
  unfold sort_files at h
  split at h <;>
    first
      | (injection h with h2; rw [← h2]; exact List.perm_insertionSort _ _)
      | exact Except.noConfusion h

theorem buil_rename_plan_ok {files : List FileEntry} {order : String}
    {pref sep : Name} {start padding : Int} {case : String}
    {keep no_number : Bool} {plan : List (Name × Name)}
    (h : buil_rename_plan files order pref sep start padding case keep no_number
      = .ok plan) :
    ∃ ordered, sort_files files order = .ok ordered ∧
      plan = buildPlanAux pref sep case keep no_number padding ordered start := by
  unfold buil_rename_plan at h
  split at h
  · exact Except.noConfusion h
  · next ordered heq =>
    injection h with h2
    exact ⟨ordered, heq, h2.symm⟩

instance exceptDecEq {ε α : Type _} [DecidableEq ε] [DecidableEq α] :
    DecidableEq (Except ε α)
  | .error e1, .error e2 =>
    if h : e1 = e2 then isTrue (by rw [h])
    else isFalse (fun hc => h (Except.error.inj hc))
  | .error _, .ok _ => isFalse (fun hc => Except.noConfusion hc)
  | .ok _, .error _ => isFalse (fun hc => Except.noConfusion hc)
  | .ok a1, .ok a2 =>
    if h : a1 = a2 then isTrue (by rw [h])
    else isFalse (fun hc => h (Except.ok.inj hc))

theorem start_pos {start : Int} (h : is_valid_start_index start = true) :
    1 ≤ start := by
  unfold is_valid_start_index at h
  have := of_decide_eq_true h
  omega

/-- Claim C1, amended: for every valid configuration with
`keep = false` (so numbering is active), the plan maps each source file
to exactly one target — the keys are exactly the source names, without
duplicates — and all target paths are pairwise distinct.  (With
`keep = true` the builder neither guarantees nor detects target
collisions; see the counterexample.) -/
theorem c1_plan_bijection_keep_false
    (files : List FileEntry) (order : String) (pref sep : Name)
    (start padding : Int) (case : String) (no_number : Bool)
    (plan : List (Name × Name))
    (hsep : is_valid_separator sep = true)
    (hstart : is_valid_start_index start = true)
    (hpad : is_valid_padding padding = true)
    (hcase : is_valid_case case = true)
    (hcomb : is_invalid_keep_no_number_combination false no_number = false)
    (hnames : (files.map FileEntry.name).Nodup)
    (hplan : buil_rename_plan files order pref sep start padding case false no_number
      = .ok plan) :
    (plan.map Prod.fst).Perm (files.map FileEntry.name) ∧
      (plan.map Prod.fst).Nodup ∧ (plan.map Prod.snd).Nodup := by
  have hnn : no_number = false := by
    unfold is_invalid_keep_no_number_combination at hcomb
    simpa using hcomb
  subst hnn
  obtain ⟨ordered, hsort, hbuild⟩ := buil_rename_plan_ok hplan
  have hperm : ordered.Perm files := sort_files_perm hsort
  have hkeys : plan.map Prod.fst = ordered.map FileEntry.name := by
    rw [hbuild]
    exact buildPlanAux_map_fst pref sep case false false padding ordered start
  refine ⟨?_, ?_, ?_⟩
  · rw [hkeys]; exact hperm.map FileEntry.name
  · rw [hkeys]; exact ((hperm.map FileEntry.name).nodup_iff).mpr hnames
  · rw [hbuild]
    exact buildPlanAux_snd_nodup pref sep case padding ordered start (start_pos hstart)

/-- Claim C1 is false as stated: with the valid configuration
`keep = true, no_number = true` (legal per the `keep`/`no_number` rule)
two distinct files whose lowercased stems coincide are mapped to the
same target, and with `keep = true, no_number = false` the files
`a._2` and `a_1.` also collide on `a_1._2`; in both runs the builder
returns the plan without detecting the collision. -/
theorem c1_counterexample :
    (is_valid_separator "_".data = true ∧ is_valid_start_index 1 = true ∧
      is_valid_padding 0 = true ∧ is_valid_case "lower" = true ∧
      is_invalid_keep_no_number_combination true true = false ∧
      is_invalid_keep_no_number_combination true false = false) ∧
    buil_rename_plan [⟨"A.txt".data, 0, 0⟩, ⟨"a.txt".data, 0, 0⟩] "name"
      [] "_".data 1 0 "lower" true true
      = .ok [("A.txt".data, "a.txt".data), ("a.txt".data, "a.txt".data)] ∧
    ¬ ([("A.txt".data, "a.txt".data), ("a.txt".data, "a.txt".data)].map
        (Prod.snd (α := Name) (β := Name))).Nodup ∧
    buil_rename_plan [⟨"a._2".data, 0, 0⟩, ⟨"a_1.".data, 0, 0⟩] "name"
      [] "_".data 1 0 "lower" true false
      = .ok [("a._2".data, "a_1._2".data), ("a_1.".data, "a_1._2".data)] ∧
    ¬ ([("a._2".data, "a_1._2".data), ("a_1.".data, "a_1._2".data)].map
        (Prod.snd (α := Name) (β := Name))).Nodup := by
  refine ⟨by decide, by decide, by decide, by decide, by decide⟩

/-- Witness for the amended C1 theorem at the spec's own scenario. -/
theorem c1_plan_bijection_keep_false_witness :
    (([(("photo1.jpg").data, ("IMG_01.jpg").data),
       (("photo10.jpg").data, ("IMG_02.jpg").data),
       (("photo2.jpg").data, ("IMG_03.jpg").data)].map
        (Prod.fst (α := Name) (β := Name))).Perm
      ([⟨"photo2.jpg".data, 0, 0⟩, ⟨"photo10.jpg".data, 0, 0⟩,
        ⟨"photo1.jpg".data, 0, 0⟩].map FileEntry.name)) ∧
    (([(("photo1.jpg").data, ("IMG_01.jpg").data),
       (("photo10.jpg").data, ("IMG_02.jpg").data),
       (("photo2.jpg").data, ("IMG_03.jpg").data)].map
        (Prod.fst (α := Name) (β := Name))).Nodup) ∧
    (([(("photo1.jpg").data, ("IMG_01.jpg").data),
       (("photo10.jpg").data, ("IMG_02.jpg").data),
       (("photo2.jpg").data, ("IMG_03.jpg").data)].map
        (Prod.snd (α := Name) (β := Name))).Nodup) :=
  c1_plan_bijection_keep_false
    [⟨"photo2.jpg".data, 0, 0⟩, ⟨"photo10.jpg".data, 0, 0⟩, ⟨"photo1.jpg".data, 0, 0⟩]
    "name" "img".data "_".data 1 2 "upper" false
    [(("photo1.jpg").data, ("IMG_01.jpg").data),
     (("photo10.jpg").data, ("IMG_02.jpg").data),
     (("photo2.jpg").data, ("IMG_03.jpg").data)]
    (by decide) (by decide) (by decide) (by decide) (by decide) (by decide)
    (by decide)

/-! ## Lemmas: the target list under a uniform extension, `keep = false` -/

/-- The target names a `keep = false` run produces for `n` files sharing
the extension `sfx`, numbered from `idx`: they depend only on the count,
the configuration and the common extension. -/
def numberedTargets (pref sep : Name) (case : String) (padding : Int)
    (sfx : Name) : Nat → Int → List Name
  | 0, _ => []
  | n + 1, idx =>
    (preJoin pref sep case ++ (indexStr idx padding ++ sfx))
      :: numberedTargets pref sep case padding sfx n (idx + 1)

theorem numberedTargets_length (pref sep : Name) (case : String)
    (padding : Int) (sfx : Name) :
    ∀ (n : Nat) (idx : Int),
      (numberedTargets pref sep case padding sfx n idx).length = n := by
  intro n
  induction n with
  | zero => intro idx; rfl
  | succ n ih => intro idx; simp [numberedTargets, ih]

theorem numberedTargets_mem {pref sep : Name} {case : String} {padding : Int}
    {sfx : Name} :
    ∀ {n : Nat} {idx : Int} {x : Name},
      x ∈ numberedTargets pref sep case padding sfx n idx →
      ∃ j, idx ≤ j ∧ x = preJoin pref sep case ++ (indexStr j padding ++ sfx) := by
  intro n
  induction n with
  | zero => intro idx x hx; simp [numberedTargets] at hx
  | succ n ih =>
    intro idx x hx
    rcases List.mem_cons.mp hx with rfl | hx
    · exact ⟨idx, le_refl idx, rfl⟩
    · obtain ⟨j, hj, hx⟩ := ih hx
      exact ⟨j, by omega, hx⟩

theorem buildPlanAux_snd_uniform {pref sep : Name} {case : String}
    {padding : Int} {sfx : Name} :
    ∀ {items : List FileEntry} {idx : Int}, 1 ≤ idx →
      (∀ it ∈ items, suffixOf it.name = sfx) →
      (buildPlanAux pref sep case false false padding items idx).map Prod.snd
        = numberedTargets pref sep case padding sfx items.length idx := by
  intro items
  induction items with
  | nil => intro idx _ _; rfl
  | cons it rest ih =>
    intro idx hidx hsfx
    simp only [buildPlanAux, List.map_cons, List.length_cons]
    rw [targetName_keep_false pref sep case padding it hidx,
      hsfx it (List.mem_cons_self _ _),
      ih (by omega) (fun x hx => hsfx x (List.mem_cons_of_mem _ hx))]
    rfl

/-- Claim C9, amended: with `keep = false` and all files sharing one
non-empty extension, re-running the plan builder with the same valid
configuration on the file set produced by the previous plan yields the
same target names.  (With `keep = true`, or with extensionless or
mixed-extension file sets, the names do drift; see the counterexample.) -/
theorem c9_rebuild_same_targets
    (files files2 : List FileEntry) (order : String) (pref sep : Name)
    (start padding : Int) (case : String) (r : Name)
    (plan1 plan2 : List (Name × Name))
    (hsep : is_valid_separator sep = true)
    (hstart : is_valid_start_index start = true)
    (hpad : is_valid_padding padding = true)
    (hcase : is_valid_case case = true)
    (hrne : r ≠ []) (hrdot : '.' ∉ r)
    (hsfx : ∀ f ∈ files, suffixOf f.name = '.' :: r)
    (hplan1 : buil_rename_plan files order pref sep start padding case false false
      = .ok plan1)
    (hnames2 : (files2.map FileEntry.name).Perm (plan1.map Prod.snd))
    (hplan2 : buil_rename_plan files2 order pref sep start padding case false false
      = .ok plan2) :
    plan2.map Prod.snd = plan1.map Prod.snd := by
  have hstart' : 1 ≤ start := start_pos hstart
  obtain ⟨ord1, hsort1, hb1⟩ := buil_rename_plan_ok hplan1
  obtain ⟨ord2, hsort2, hb2⟩ := buil_rename_plan_ok hplan2
  have hperm1 := sort_files_perm hsort1
  have hperm2 := sort_files_perm hsort2
  have hv1 : plan1.map Prod.snd
      = numberedTargets pref sep case padding ('.' :: r) ord1.length start := by
    rw [hb1]
    exact buildPlanAux_snd_uniform hstart' (fun it hit => hsfx it (hperm1.subset hit))
  have hsfx2 : ∀ f ∈ files2, suffixOf f.name = '.' :: r := by
    intro f hf
    have hmem : f.name ∈ plan1.map Prod.snd :=
      hnames2.subset (List.mem_map_of_mem FileEntry.name hf)
    rw [hv1] at hmem
    obtain ⟨j, hj, hx⟩ := numberedTargets_mem hmem
    rw [hx, ← List.append_assoc]
    refine suffixOf_append ?_ hrne hrdot
    intro hc
    rcases List.append_eq_nil.mp hc with ⟨_, h2⟩
    exact indexStr_ne_nil (by omega) padding h2
  have hv2 : plan2.map Prod.snd
      = numberedTargets pref sep case padding ('.' :: r) ord2.length start := by
    rw [hb2]
    exact buildPlanAux_snd_uniform hstart' (fun it hit => hsfx2 it (hperm2.subset hit))
  have hlen : ord2.length = ord1.length := by
    have l2 : ord2.length = files2.length := hperm2.length_eq
    have l1 : ord1.length = files.length := hperm1.length_eq
    have lf2 : (files2.map FileEntry.name).length = (plan1.map Prod.snd).length :=
      hnames2.length_eq
    have lp1 : (plan1.map Prod.snd).length
        = (numberedTargets pref sep case padding ('.' :: r) ord1.length start).length := by
      rw [hv1]
    rw [numberedTargets_length] at lp1
    simp only [List.length_map] at lf2 lp1
    omega
  rw [hv1, hv2, hlen]

/-- Claim C9 is false as stated: three valid configurations where
re-running the builder on the renamed set drifts — keeping the stem
compounds it (`a.txt` becomes `a_1.txt`, then `a_1_1.txt`); an
extensionless file with separator `.` grows a spurious extension
(`a` becomes `img.1`, then `img.1.1`); mixed extensions with
`start = 9` swap their extensions on the second run. -/
theorem c9_counterexample :
    (is_valid_separator "_".data = true ∧ is_valid_separator ".".data = true ∧
      is_valid_start_index 1 = true ∧ is_valid_start_index 9 = true ∧
      is_valid_padding 0 = true ∧ is_valid_case "lower" = true ∧
      is_invalid_keep_no_number_combination true false = false ∧
      is_invalid_keep_no_number_combination false false = false) ∧
    (buil_rename_plan [⟨"a.txt".data, 0, 0⟩] "name" [] "_".data 1 0 "lower" true false
        = .ok [("a.txt".data, "a_1.txt".data)] ∧
      buil_rename_plan [⟨"a_1.txt".data, 0, 0⟩] "name" [] "_".data 1 0 "lower" true false
        = .ok [("a_1.txt".data, "a_1_1.txt".data)] ∧
      ["a_1_1.txt".data] ≠ (["a_1.txt".data] : List Name)) ∧
    (buil_rename_plan [⟨"a".data, 0, 0⟩] "name" "img".data ".".data 1 0 "lower" false false
        = .ok [("a".data, "img.1".data)] ∧
      buil_rename_plan [⟨"img.1".data, 0, 0⟩] "name" "img".data ".".data 1 0 "lower" false false
        = .ok [("img.1".data, "img.1.1".data)] ∧
      ["img.1.1".data] ≠ (["img.1".data] : List Name)) ∧
    (buil_rename_plan [⟨"a.jpg".data, 0, 0⟩, ⟨"b.txt".data, 0, 0⟩] "name"
        "img".data "_".data 9 0 "lower" false false
        = .ok [("a.jpg".data, "img_9.jpg".data), ("b.txt".data, "img_10.txt".data)] ∧
      buil_rename_plan [⟨"img_9.jpg".data, 0, 0⟩, ⟨"img_10.txt".data, 0, 0⟩] "name"
        "img".data "_".data 9 0 "lower" false false
        = .ok [("img_10.txt".data, "img_9.txt".data), ("img_9.jpg".data, "img_10.jpg".data)] ∧
      (["img_9.txt".data, "img_10.jpg".data] : List Name).toFinset
        ≠ (["img_9.jpg".data, "img_10.txt".data] : List Name).toFinset) := by
  refine ⟨by decide, ⟨by decide, by decide, by decide⟩,
    ⟨by decide, by decide, by decide⟩, ⟨by decide, by decide, by decide⟩⟩

/-- Witness for the amended C9 theorem: one `a.txt` file renamed to
`img_1.txt`; rebuilding on the renamed set gives the same target. -/
theorem c9_rebuild_same_targets_witness :
    ([("img_1.txt".data, "img_1.txt".data)].map (Prod.snd (α := Name) (β := Name)))
      = ([("a.txt".data, "img_1.txt".data)].map (Prod.snd (α := Name) (β := Name))) :=
  c9_rebuild_same_targets
    [⟨"a.txt".data, 0, 0⟩] [⟨"img_1.txt".data, 0, 0⟩] "name" "img".data "_".data
    1 0 "lower" "txt".data
    [("a.txt".data, "img_1.txt".data)] [("img_1.txt".data, "img_1.txt".data)]
    (by decide) (by decide) (by decide) (by decide) (by decide) (by decide)
    (by decide) (by decide) (by decide) (by decide)

/-- Claim C2 concerns validation that the code does not perform: the
checks of the docstring are commented out (src/src/renamer.py:85-94).
This theorem evaluates the builder at configurations every repository
validator rejects — `start = 0`, `padding = -1`, separator `"@"`, case
`"weird"`, and the illegal `keep = false, no_number = true` — and the
builder returns a plan instead of failing. -/
theorem c2_validation_not_performed :
    (is_valid_start_index 0 = false ∧ is_valid_padding (-1) = false ∧
      is_valid_separator "@".data = false ∧ is_valid_case "weird" = false ∧
      is_invalid_keep_no_number_combination false true = true) ∧
    buil_rename_plan [⟨"a.txt".data, 0, 0⟩] "name" [] "_".data 0 (-1) "lower"
      true false = .ok [("a.txt".data, "a_0.txt".data)] ∧
    buil_rename_plan [⟨"a.txt".data, 0, 0⟩] "name" [] "@".data 1 0 "weird"
      false true = .ok [("a.txt".data, ".txt".data)] := by
  exact ⟨by decide, by decide, by decide⟩

/-! ## Claim C10: unrecognised case values silently fall back to lowercase -/

theorem applyCase_other {case : String} (h1 : case ≠ "upper")
    (h2 : case ≠ "title") : applyCase case = applyCase "lower" := by
  funext s
  have hl : applyCase "lower" s = lowerStr s := rfl
  rw [hl]
  unfold applyCase
  split
  · simp_all
  · simp_all
  · rfl

theorem targetName_case_other {case : String} (h1 : case ≠ "upper")
    (h2 : case ≠ "title") (pref sep : Name) (keep no_number : Bool)
    (padding : Int) (it : FileEntry) (i : Int) :
    targetName pref sep case keep no_number padding it i
      = targetName pref sep "lower" keep no_number padding it i := by
  unfold targetName
  rw [applyCase_other h1 h2]

theorem buildPlanAux_case_other {case : String} (h1 : case ≠ "upper")
    (h2 : case ≠ "title") (pref sep : Name) (keep no_number : Bool)
    (padding : Int) :
    ∀ (items : List FileEntry) (idx : Int),
      buildPlanAux pref sep case keep no_number padding items idx
        = buildPlanAux pref sep "lower" keep no_number padding items idx := by
  intro items
  induction items with
  | nil => intro idx; rfl
  | cons it rest ih =>
    intro idx
    simp only [buildPlanAux, targetName_case_other h1 h2, ih]

/-- Claim C10: for every case string other than `"upper"` and `"title"`
— including invalid values — the builder raises no error for the case
field and behaves exactly as if the case were `"lower"`. -/
theorem c10_unknown_case_is_lower (files : List FileEntry) (order : String)
    (pref sep : Name) (start padding : Int) (keep no_number : Bool)
    (case : String) (h1 : case ≠ "upper") (h2 : case ≠ "title") :
    buil_rename_plan files order pref sep start padding case keep no_number
      = buil_rename_plan files order pref sep start padding "lower" keep no_number := by
  unfold buil_rename_plan
  cases hs : sort_files files order with
  | error e => rfl
  | ok ordered => simp only [buildPlanAux_case_other h1 h2]

/-- Witness for C10 at the invalid case value `"original"`. -/
theorem c10_unknown_case_is_lower_witness :
    buil_rename_plan [⟨"A.txt".data, 0, 0⟩] "name" [] "_".data 1 0 "original"
        true false
      = buil_rename_plan [⟨"A.txt".data, 0, 0⟩] "name" [] "_".data 1 0 "lower"
        true false :=
  c10_unknown_case_is_lower [⟨"A.txt".data, 0, 0⟩] "name" [] "_".data 1 0
    true false "original" (by decide) (by decide)

/-! ## Claim C5: the spec's description of name construction -/

/-- The numbering component as the spec words it: "the zero-padded index
(padding width from config; if the index's digit count exceeds the
padding width, the full number is used unpadded — no truncation)". -/
def specNumberComponent (index : Int) (padding : Int) : Name :=
  if padding.toNat < (intStr index).length then intStr index
  else List.replicate (padding.toNat - (intStr index).length) '0' ++ intStr index

/-- The target name as the spec words it (§4.2): the component list
[prefix if non-empty; original stem if keep; the padded index if
numbering is not suppressed], the case transform applied to each
component independently, joined with the separator, with the original
extension appended unchanged. -/
def specTargetName (pref sep : Name) (case : String) (keep no_number : Bool)
    (padding : Int) (it : FileEntry) (index : Int) : Name :=
  List.intercalate sep
    (((if pref ≠ [] then [pref] else [])
        ++ (if keep then [stemOf it.name] else [])
        ++ (if !no_number then [specNumberComponent index padding] else [])).map
      (applyCase case))
    ++ suffixOf it.name

/-- The plan as the spec words it: a strictly increasing index assigned
to each file of the ordered input, starting at `start`, incrementing by
one per file. -/
def specPlan (pref sep : Name) (case : String) (keep no_number : Bool)
    (padding : Int) : List FileEntry → Int → List (Name × Name)
  | [], _ => []
  | it :: rest, index =>
    (it.name, specTargetName pref sep case keep no_number padding it index)
      :: specPlan pref sep case keep no_number padding rest (index + 1)

theorem specNumberComponent_eq {i : Int} (hi : 1 ≤ i) (p : Int) :
    specNumberComponent i p = indexStr i p := by
  rw [indexStr_pos_eq hi p]
  unfold specNumberComponent
  rw [intStr_of_pos hi]
  by_cases h : p.toNat < (natStr i.toNat).length
  · rw [if_pos h]
    have h0 : p.toNat - (natStr i.toNat).length = 0 := by omega
    rw [h0]
    simp
  · rw [if_neg h]

theorem specTargetName_eq (pref sep : Name) (case : String)
    (keep no_number : Bool) (padding : Int) (it : FileEntry) {i : Int}
    (hi : 1 ≤ i) :
    specTargetName pref sep case keep no_number padding it i
      = targetName pref sep case keep no_number padding it i := by
  unfold specTargetName targetName
  rw [specNumberComponent_eq hi]

theorem specPlan_eq (pref sep : Name) (case : String) (keep no_number : Bool)
    (padding : Int) :
    ∀ (items : List FileEntry) {idx : Int}, 1 ≤ idx →
      specPlan pref sep case keep no_number padding items idx
        = buildPlanAux pref sep case keep no_number padding items idx := by
  intro items
  induction items with
  | nil => intro idx _; rfl
  | cons it rest ih =>
    intro idx hidx
    simp only [specPlan, buildPlanAux,
      specTargetName_eq pref sep case keep no_number padding it hidx]
    rw [ih (show (1 : Int) ≤ idx + 1 by omega)]

/-- Claim C5: for every file of the ordered input the builder constructs
the target exactly as the spec describes — components [prefix if
non-empty; stem if keep; padded index if numbering on], case transform
applied to each component independently, joined with the separator,
original extension appended unchanged, indices consecutive from
`start` — and the spec's photo scenario computes to
`IMG_01.jpg, IMG_02.jpg, IMG_03.jpg`. -/
theorem c5_target_name_construction :
    (∀ (files : List FileEntry) (order : String) (pref sep : Name)
      (start padding : Int) (case : String) (keep no_number : Bool)
      (ordered : List FileEntry),
      is_valid_start_index start = true →
      sort_files files order = .ok ordered →
      buil_rename_plan files order pref sep start padding case keep no_number
        = .ok (specPlan pref sep case keep no_number padding ordered start)) ∧
    buil_rename_plan
      [⟨"photo2.jpg".data, 0, 0⟩, ⟨"photo10.jpg".data, 0, 0⟩,
        ⟨"photo1.jpg".data, 0, 0⟩] "name" "img".data "_".data 1 2 "upper"
      false false
      = .ok [("photo1.jpg".data, "IMG_01.jpg".data),
             ("photo10.jpg".data, "IMG_02.jpg".data),
             ("photo2.jpg".data, "IMG_03.jpg".data)] := by
  constructor
  · intro files order pref sep start padding case keep no_number ordered hstart hsort
    unfold buil_rename_plan
    rw [hsort]
    rw [specPlan_eq pref sep case keep no_number padding ordered (start_pos hstart)]
  · decide

/-- Witness for C5: the spec scenario, with the builder's output equal to
the spec-side plan of the sorted input. -/
theorem c5_target_name_construction_witness :
    buil_rename_plan
      [⟨"photo2.jpg".data, 0, 0⟩, ⟨"photo10.jpg".data, 0, 0⟩,
        ⟨"photo1.jpg".data, 0, 0⟩] "name" "img".data "_".data 1 2 "upper"
      false false
      = .ok (specPlan "img".data "_".data "upper" false false 2
        [⟨"photo1.jpg".data, 0, 0⟩, ⟨"photo10.jpg".data, 0, 0⟩,
          ⟨"photo2.jpg".data, 0, 0⟩] 1) :=
  c5_target_name_construction.1
    [⟨"photo2.jpg".data, 0, 0⟩, ⟨"photo10.jpg".data, 0, 0⟩,
      ⟨"photo1.jpg".data, 0, 0⟩] "name" "img".data "_".data 1 2 "upper"
    false false
    [⟨"photo1.jpg".data, 0, 0⟩, ⟨"photo10.jpg".data, 0, 0⟩,
      ⟨"photo2.jpg".data, 0, 0⟩]
    (by decide) (by decide)

/-! ## Claim C6: the embedded-number ordering -/

instance : IsTotal FileEntry embedded_le :=
  ⟨fun a b => Int.le_total (extract_embedded_number a.name) (extract_embedded_number b.name)⟩

instance : IsTrans FileEntry embedded_le :=
  ⟨fun _a _b _c hab hbc => le_trans hab hbc⟩

theorem filter_orderedInsert_embedded (k : Int) (a : FileEntry) :
    ∀ l : List FileEntry,
      (List.orderedInsert embedded_le a l).filter
          (fun f => extract_embedded_number f.name == k)
        = if extract_embedded_number a.name == k then
            a :: l.filter (fun f => extract_embedded_number f.name == k)
          else l.filter (fun f => extract_embedded_number f.name == k) := by
  intro l
  induction l with
  | nil =>
    simp only [List.orderedInsert, List.filter_cons, List.filter_nil]
  | cons b l ih =>
    simp only [List.orderedInsert]
    by_cases hr : embedded_le a b
    · rw [if_pos hr]
      simp only [List.filter_cons]
    · rw [if_neg hr]
      have hlt : extract_embedded_number b.name < extract_embedded_number a.name := by
        unfold embedded_le at hr
        omega
      by_cases hA : extract_embedded_number a.name = k
      · have hB : ¬ extract_embedded_number b.name = k := by omega
        simp only [List.filter_cons, ih]
        simp [hA, hB]
      · simp only [List.filter_cons, ih]
        simp [hA]

theorem filter_insertionSort_embedded (k : Int) :
    ∀ l : List FileEntry,
      (l.insertionSort embedded_le).filter
          (fun f => extract_embedded_number f.name == k)
        = l.filter (fun f => extract_embedded_number f.name == k) := by
  intro l
  induction l with
  | nil => rfl
  | cons a l ih =>
    simp only [List.insertionSort]
    rw [filter_orderedInsert_embedded, ih, List.filter_cons]

theorem firstDigitRun_none_iff :
    ∀ s : Name, firstDigitRun s = none ↔ ∀ c ∈ s, c.isDigit = false := by
  intro s
  induction s with
  | nil => simp [firstDigitRun]
  | cons c rest ih =>
    unfold firstDigitRun
    by_cases h : c.isDigit
    · simp [h]
    · simp only [h, Bool.false_eq_true, if_false, ih, List.mem_cons]
      constructor
      · intro hall d hd
        rcases hd with rfl | hd
        · simp [h]
        · exact hall d hd
      · intro hall d hd
        exact hall d (Or.inr hd)

theorem firstDigitRun_some {s run : Name} (h : firstDigitRun s = some run) :
    ∃ c ∈ s, c.isDigit = true := by
  induction s with
  | nil => simp [firstDigitRun] at h
  | cons c rest ih =>
    unfold firstDigitRun at h
    by_cases hc : c.isDigit
    · exact ⟨c, List.mem_cons_self _ _, hc⟩
    · rw [if_neg (by simp [hc])] at h
      obtain ⟨d, hd, hdig⟩ := ih h
      exact ⟨d, List.mem_cons_of_mem _ hd, hdig⟩

theorem extract_embedded_number_neg_one_iff (nm : Name) :
    extract_embedded_number nm = -1 ↔ ∀ c ∈ stemOf nm, c.isDigit = false := by
  rw [← firstDigitRun_none_iff]
  unfold extract_embedded_number
  cases h : firstDigitRun (stemOf nm) with
  | none => simp
  | some run =>
    simp only []
    constructor
    · intro hc
      exfalso
      omega
    · intro hc
      exact Option.noConfusion hc

theorem extract_embedded_number_ge (nm : Name) :
    -1 ≤ extract_embedded_number nm := by
  unfold extract_embedded_number
  cases firstDigitRun (stemOf nm) with
  | none => simp
  | some run => simp; omega

/-- Claim C6: sorting by the embedded-number criterion is a permutation
sorted by the first-digit-run key, the sentinel `-1` is assigned exactly
to stems with no digit and is minimal (so those entries sort first),
ties are broken stably (the elements with any fixed key keep their input
order), and the spec's example sorts as stated. -/
theorem c6_embedded_number_sort :
    (∀ (files out : List FileEntry),
      sort_files files "embedded" = .ok out →
      out.Perm files ∧ List.Sorted embedded_le out ∧
        ∀ k : Int,
          out.filter (fun f => extract_embedded_number f.name == k)
            = files.filter (fun f => extract_embedded_number f.name == k)) ∧
    (∀ nm : Name,
      (extract_embedded_number nm = -1 ↔ ∀ c ∈ stemOf nm, c.isDigit = false) ∧
      -1 ≤ extract_embedded_number nm) ∧
    sort_files [⟨"file3.txt".data, 0, 0⟩, ⟨"file1.txt".data, 0, 0⟩,
        ⟨"fileA.txt".data, 0, 0⟩] "embedded"
      = .ok [⟨"fileA.txt".data, 0, 0⟩, ⟨"file1.txt".data, 0, 0⟩,
        ⟨"file3.txt".data, 0, 0⟩] := by
  refine ⟨?_, fun nm => ⟨extract_embedded_number_neg_one_iff nm,
    extract_embedded_number_ge nm⟩, by decide⟩
  intro files out h
  have heq : sort_files files "embedded" = .ok (files.insertionSort embedded_le) := rfl
  rw [heq] at h
  injection h with h2
  subst h2
  exact ⟨List.perm_insertionSort embedded_le files,
    List.sorted_insertionSort embedded_le files,
    fun k => filter_insertionSort_embedded k files⟩

/-- Witness for C6 at the spec's example list. -/
theorem c6_embedded_number_sort_witness :
    ([⟨"fileA.txt".data, 0, 0⟩, ⟨"file1.txt".data, 0, 0⟩,
        ⟨"file3.txt".data, 0, 0⟩] : List FileEntry).Perm
      [⟨"file3.txt".data, 0, 0⟩, ⟨"file1.txt".data, 0, 0⟩,
        ⟨"fileA.txt".data, 0, 0⟩] ∧
    (extract_embedded_number "fileA.txt".data = -1 ↔
      ∀ c ∈ stemOf "fileA.txt".data, c.isDigit = false) :=
  ⟨(c6_embedded_number_sort.1
      [⟨"file3.txt".data, 0, 0⟩, ⟨"file1.txt".data, 0, 0⟩, ⟨"fileA.txt".data, 0, 0⟩]
      [⟨"fileA.txt".data, 0, 0⟩, ⟨"file1.txt".data, 0, 0⟩, ⟨"file3.txt".data, 0, 0⟩]
      (by decide)).1,
    (c6_embedded_number_sort.2.1 "fileA.txt".data).1⟩

/-! ## Lemmas: the two-phase transaction -/

theorem tempNames_length (uuids : Nat → Name) :
    ∀ (k : Nat) (entries : List (Name × Name)),
      (tempNames uuids k entries).length = entries.length := by
  intro k entries
  induction entries generalizing k with
  | nil => rfl
  | cons e rest ih => obtain ⟨o, n⟩ := e; simp [tempNames, ih]

/-- A successful stage phase: with distinct source names all present and
fresh pairwise-distinct temporaries, every source is renamed to its
temporary and the recorded map pairs each temporary with its target. -/
theorem stagePhase_ok (uuids : Nat → Name) :
    ∀ (entries : List (Name × Name)) (k : Nat) (fs : Finset Name),
      (entries.map Prod.fst).Nodup →
      (∀ e ∈ entries, e.1 ∈ fs) →
      (tempNames uuids k entries).Nodup →
      (∀ t ∈ tempNames uuids k entries, t ∉ fs) →
      ∃ fsOut,
        stagePhase uuids entries k fs
          = .ok (fsOut, (tempNames uuids k entries).zip (entries.map Prod.snd)) ∧
        ∀ x, x ∈ fsOut ↔
          ((x ∈ fs ∧ x ∉ entries.map Prod.fst) ∨ x ∈ tempNames uuids k entries) := by
  intro entries
  induction entries with
  | nil => intro k fs _ _ _ _; exact ⟨fs, rfl, by simp [tempNames]⟩
  | cons e rest ih =>
    obtain ⟨old, new⟩ := e
    intro k fs hnd hmem htnd htfs
    simp only [tempNames, List.map_cons] at htnd htfs hnd ⊢
    have hold : old ∈ fs := hmem (old, new) (List.mem_cons_self _ _)
    have htn_fs : tempName old (uuids k) ∉ fs := htfs _ (List.mem_cons_self _ _)
    obtain ⟨hold_rest, hnd1⟩ := List.nodup_cons.mp hnd
    obtain ⟨htn_rest, htnd1⟩ := List.nodup_cons.mp htnd
    have f1 : tempName old (uuids k) ∉ rest.map Prod.fst := by
      intro hc
      obtain ⟨e, he, heq⟩ := List.mem_map.mp hc
      exact htn_fs (heq ▸ hmem e (List.mem_cons_of_mem _ he))
    obtain ⟨fsOut, hstage, hchar⟩ :=
      ih (k + 1) (insert (tempName old (uuids k)) (fs.erase old))
        hnd1
        (by
          intro e he
          have he1 : e.1 ∈ fs := hmem e (List.mem_cons_of_mem _ he)
          have hne : e.1 ≠ old := by
            intro hc
            exact hold_rest (hc ▸ List.mem_map_of_mem Prod.fst he)
          exact Finset.mem_insert.mpr (Or.inr (Finset.mem_erase.mpr ⟨hne, he1⟩)))
        htnd1
        (by
          intro t ht hc
          rcases Finset.mem_insert.mp hc with hc | hc
          · exact htn_rest (hc ▸ ht)
          · exact htfs t (List.mem_cons_of_mem _ ht) (Finset.mem_of_mem_erase hc))
    refine ⟨fsOut, ?_, ?_⟩
    · unfold stagePhase osRename
      rw [if_pos hold]
      dsimp only
      rw [hstage]
      dsimp only
      rw [List.zip_cons_cons]
    · intro x
      rw [hchar x]
      simp only [Finset.mem_insert, Finset.mem_erase, List.mem_cons]
      constructor
      · rintro (⟨(rfl | ⟨hne, hxfs⟩), hx2⟩ | hx)
        · exact Or.inr (Or.inl rfl)
        · refine Or.inl ⟨hxfs, ?_⟩
          rintro (rfl | hc)
          · exact hne rfl
          · exact hx2 hc
        · exact Or.inr (Or.inr hx)
      · rintro (⟨hxfs, hxk⟩ | (rfl | hx))
        · exact Or.inl ⟨Or.inr ⟨fun hc => hxk (Or.inl hc), hxfs⟩,
            fun hc => hxk (Or.inr hc)⟩
        · exact Or.inl ⟨Or.inl rfl, f1⟩
        · exact Or.inr hx

/-- A successful commit phase: the temporaries are removed and the
targets appear. -/
theorem commitPhase_ok :
    ∀ (tm : List (Name × Name)) (fs : Finset Name),
      (tm.map Prod.fst).Nodup →
      (∀ e ∈ tm, e.1 ∈ fs) →
      (∀ v ∈ tm.map Prod.snd, v ∉ tm.map Prod.fst) →
      ∃ fsOut, commitPhase tm fs = .ok fsOut ∧
        ∀ x, x ∈ fsOut ↔
          ((x ∈ fs ∧ x ∉ tm.map Prod.fst) ∨ x ∈ tm.map Prod.snd) := by
  intro tm
  induction tm with
  | nil => intro fs _ _ _; exact ⟨fs, rfl, by simp⟩
  | cons e rest ih =>
    obtain ⟨tn, v⟩ := e
    intro fs hnd hmem hdisj
    rw [List.map_cons] at hnd
    obtain ⟨htn_rest, hnd1⟩ := List.nodup_cons.mp hnd
    have htn_fs : tn ∈ fs := hmem (tn, v) (List.mem_cons_self _ _)
    rw [List.map_cons, List.map_cons] at hdisj
    have hv_not_fst : v ∉ tn :: rest.map Prod.fst :=
      hdisj v (List.mem_cons_self _ _)
    have hv1 : v ∉ rest.map Prod.fst :=
      fun hc => hv_not_fst (List.mem_cons_of_mem _ hc)
    obtain ⟨fsOut, hcommit, hchar⟩ :=
      ih (insert v (fs.erase tn))
        hnd1
        (by
          intro e he
          by_cases hev : e.1 = v
          · exact Finset.mem_insert.mpr (Or.inl hev)
          · have he1 : e.1 ∈ fs := hmem e (List.mem_cons_of_mem _ he)
            have hne : e.1 ≠ tn := by
              intro hc
              have hm : e.1 ∈ rest.map Prod.fst := List.mem_map_of_mem Prod.fst he
              rw [hc] at hm
              exact htn_rest hm
            exact Finset.mem_insert.mpr (Or.inr (Finset.mem_erase.mpr ⟨hne, he1⟩)))
        (by
          intro v' hv' hc
          exact hdisj v' (List.mem_cons_of_mem _ hv') (List.mem_cons_of_mem _ hc))
    refine ⟨fsOut, ?_, ?_⟩
    · unfold commitPhase osRename
      rw [if_pos htn_fs]
      dsimp only
      exact hcommit
    · intro x
      rw [hchar x]
      simp only [Finset.mem_insert, Finset.mem_erase, List.map_cons, List.mem_cons]
      constructor
      · rintro (⟨(rfl | ⟨hne, hxfs⟩), hx2⟩ | hx)
        · exact Or.inr (Or.inl rfl)
        · refine Or.inl ⟨hxfs, ?_⟩
          rintro (rfl | hc)
          · exact hne rfl
          · exact hx2 hc
        · exact Or.inr (Or.inr hx)
      · rintro (⟨hxfs, hxk⟩ | (rfl | hx))
        · exact Or.inl ⟨Or.inr ⟨fun hc => hxk (Or.inl hc), hxfs⟩,
            fun hc => hxk (Or.inr hc)⟩
        · exact Or.inl ⟨Or.inl rfl, hv1⟩
        · exact Or.inr hx

/-- The full two-phase run on a directory holding exactly the plan's
sources: staging moves every source to its temporary, the commit leaves
exactly the targets. -/
theorem rename_run_spec (plan : List (Name × Name)) (uuids : Nat → Name)
    (hk : (plan.map Prod.fst).Nodup)
    (hv : (plan.map Prod.snd).Nodup)
    (ht : (tempNames uuids 0 plan).Nodup)
    (htf : ∀ t ∈ tempNames uuids 0 plan,
      t ∉ plan.map Prod.fst ∧ t ∉ plan.map Prod.snd) :
    stagePhase uuids plan 0 (plan.map Prod.fst).toFinset
      = .ok ((tempNames uuids 0 plan).toFinset,
        (tempNames uuids 0 plan).zip (plan.map Prod.snd)) ∧
    rename_run plan uuids (plan.map Prod.fst).toFinset
      = .ok (plan.map Prod.snd).toFinset := by
  obtain ⟨fsOut, hstage, hchar⟩ :=
    stagePhase_ok uuids plan 0 (plan.map Prod.fst).toFinset
      hk (fun e he => List.mem_toFinset.mpr (List.mem_map_of_mem _ he))
      ht (fun t htm hc => (htf t htm).1 (List.mem_toFinset.mp hc))
  have hfsOut : fsOut = (tempNames uuids 0 plan).toFinset := by
    apply Finset.ext
    intro x
    rw [hchar x]
    simp only [List.mem_toFinset]
    constructor
    · rintro (⟨h1, h2⟩ | h)
      · exact absurd h1 h2
      · exact h
    · exact fun h => Or.inr h
  rw [hfsOut] at hstage
  have hlen : (tempNames uuids 0 plan).length ≤ (plan.map Prod.snd).length := by
    rw [tempNames_length]
    simp
  have hlen2 : (plan.map Prod.snd).length ≤ (tempNames uuids 0 plan).length := by
    rw [tempNames_length]
    simp
  have hzfst : ((tempNames uuids 0 plan).zip (plan.map Prod.snd)).map Prod.fst
      = tempNames uuids 0 plan := List.map_fst_zip _ _ hlen
  have hzsnd : ((tempNames uuids 0 plan).zip (plan.map Prod.snd)).map Prod.snd
      = plan.map Prod.snd := List.map_snd_zip _ _ hlen2
  refine ⟨hstage, ?_⟩
  unfold rename_run
  rw [hstage]
  dsimp only
  obtain ⟨fsOut2, hcommit, hchar2⟩ :=
    commitPhase_ok ((tempNames uuids 0 plan).zip (plan.map Prod.snd))
      (tempNames uuids 0 plan).toFinset
      (by rw [hzfst]; exact ht)
      (by
        intro e he
        rw [List.mem_toFinset, ← hzfst]
        exact List.mem_map_of_mem _ he)
      (by
        intro v hv' hc
        rw [hzsnd] at hv'
        rw [hzfst] at hc
        exact (htf v hc).2 hv')
  rw [hcommit]
  congr 1
  apply Finset.ext
  intro x
  rw [hchar2 x, hzfst, hzsnd]
  simp only [List.mem_toFinset]
  constructor
  · rintro (⟨h1, h2⟩ | h)
    · exact absurd h1 h2
    · exact h
  · exact fun h => Or.inr h

/-- Claim C3: on a directory containing exactly the plan's sources, with
distinct sources, distinct targets and fresh unique temporaries, the
two-phase `rename_run` completes without error: the stage phase first
moves every source to its unique temporary sibling (recording
temporary ↦ target), the commit phase then moves each temporary to its
target, and the final directory holds exactly the target names with no
file lost or overwritten — in particular this covers every plan whose
target names overlap its source names, such as the full swap. -/
theorem c3_rename_run_collision_safe (plan : List (Name × Name))
    (uuids : Nat → Name)
    (hk : (plan.map Prod.fst).Nodup)
    (hv : (plan.map Prod.snd).Nodup)
    (ht : (tempNames uuids 0 plan).Nodup)
    (htf : ∀ t ∈ tempNames uuids 0 plan,
      t ∉ plan.map Prod.fst ∧ t ∉ plan.map Prod.snd) :
    stagePhase uuids plan 0 (plan.map Prod.fst).toFinset
      = .ok ((tempNames uuids 0 plan).toFinset,
        (tempNames uuids 0 plan).zip (plan.map Prod.snd)) ∧
    rename_run plan uuids (plan.map Prod.fst).toFinset
      = .ok (plan.map Prod.snd).toFinset ∧
    (plan.map Prod.snd).toFinset.card = plan.length := by
  obtain ⟨h1, h2⟩ := rename_run_spec plan uuids hk hv ht htf
  refine ⟨h1, h2, ?_⟩
  rw [List.toFinset_card_of_nodup hv, List.length_map]

/-- Witness for C3: the full swap `a.txt ↦ b.txt, b.txt ↦ a.txt` on a
directory containing exactly `a.txt` and `b.txt`. -/
theorem c3_rename_run_collision_safe_witness :
    stagePhase (fun k => natStr k)
        [("a.txt".data, "b.txt".data), ("b.txt".data, "a.txt".data)] 0
        ([("a.txt".data, "b.txt".data), ("b.txt".data, "a.txt".data)].map
          (Prod.fst (α := Name) (β := Name))).toFinset
      = .ok ((tempNames (fun k => natStr k) 0
          [("a.txt".data, "b.txt".data), ("b.txt".data, "a.txt".data)]).toFinset,
        (tempNames (fun k => natStr k) 0
          [("a.txt".data, "b.txt".data), ("b.txt".data, "a.txt".data)]).zip
          ([("a.txt".data, "b.txt".data), ("b.txt".data, "a.txt".data)].map
            (Prod.snd (α := Name) (β := Name)))) ∧
    rename_run [("a.txt".data, "b.txt".data), ("b.txt".data, "a.txt".data)]
        (fun k => natStr k)
        ([("a.txt".data, "b.txt".data), ("b.txt".data, "a.txt".data)].map
          (Prod.fst (α := Name) (β := Name))).toFinset
      = .ok ([("a.txt".data, "b.txt".data), ("b.txt".data, "a.txt".data)].map
        (Prod.snd (α := Name) (β := Name))).toFinset ∧
    (([("a.txt".data, "b.txt".data), ("b.txt".data, "a.txt".data)].map
        (Prod.snd (α := Name) (β := Name))).toFinset.card
      = [("a.txt".data, "b.txt".data), ("b.txt".data, "a.txt".data)].length) :=
  c3_rename_run_collision_safe
    [("a.txt".data, "b.txt".data), ("b.txt".data, "a.txt".data)]
    (fun k => natStr k) (by decide) (by decide) (by decide) (by decide)

/-- Claim C4: executing the plan on a directory holding exactly its
sources and then reverting with `reverse_rename_run` on the resulting
directory restores exactly the original file name set. -/
theorem c4_forward_then_reverse (plan : List (Name × Name))
    (uuids1 uuids2 : Nat → Name)
    (hk : (plan.map Prod.fst).Nodup)
    (hv : (plan.map Prod.snd).Nodup)
    (ht1 : (tempNames uuids1 0 plan).Nodup)
    (htf1 : ∀ t ∈ tempNames uuids1 0 plan,
      t ∉ plan.map Prod.fst ∧ t ∉ plan.map Prod.snd)
    (ht2 : (tempNames uuids2 0 (plan.map (fun p => (p.2, p.1)))).Nodup)
    (htf2 : ∀ t ∈ tempNames uuids2 0 (plan.map (fun p => (p.2, p.1))),
      t ∉ plan.map Prod.snd ∧ t ∉ plan.map Prod.fst) :
    rename_run plan uuids1 (plan.map Prod.fst).toFinset
      = .ok (plan.map Prod.snd).toFinset ∧
    reverse_rename_run plan uuids2 (plan.map Prod.snd).toFinset
      = .ok (plan.map Prod.fst).toFinset := by
  refine ⟨(rename_run_spec plan uuids1 hk hv ht1 htf1).2, ?_⟩
  unfold reverse_rename_run
  have h1 : (plan.map (fun p => (p.2, p.1))).map Prod.fst = plan.map Prod.snd := by
    simp
  have h2 : (plan.map (fun p => (p.2, p.1))).map Prod.snd = plan.map Prod.fst := by
    simp
  have hspec := (rename_run_spec (plan.map (fun p => (p.2, p.1))) uuids2
    (by rw [h1]; exact hv) (by rw [h2]; exact hk) ht2
    (by intro t htm; rw [h1, h2]; exact htf2 t htm)).2
  rw [h1, h2] at hspec
  exact hspec

/-- Witness for C4: the swap plan applied forward and then reverted. -/
theorem c4_forward_then_reverse_witness :
    rename_run [("a.txt".data, "b.txt".data), ("b.txt".data, "a.txt".data)]
        (fun k => natStr k)
        ([("a.txt".data, "b.txt".data), ("b.txt".data, "a.txt".data)].map
          (Prod.fst (α := Name) (β := Name))).toFinset
      = .ok ([("a.txt".data, "b.txt".data), ("b.txt".data, "a.txt".data)].map
        (Prod.snd (α := Name) (β := Name))).toFinset ∧
    reverse_rename_run [("a.txt".data, "b.txt".data), ("b.txt".data, "a.txt".data)]
        (fun k => natStr (k + 7))
        ([("a.txt".data, "b.txt".data), ("b.txt".data, "a.txt".data)].map
          (Prod.snd (α := Name) (β := Name))).toFinset
      = .ok ([("a.txt".data, "b.txt".data), ("b.txt".data, "a.txt".data)].map
        (Prod.fst (α := Name) (β := Name))).toFinset :=
  c4_forward_then_reverse
    [("a.txt".data, "b.txt".data), ("b.txt".data, "a.txt".data)]
    (fun k => natStr k) (fun k => natStr (k + 7))
    (by decide) (by decide) (by decide) (by decide) (by decide) (by decide)

/-- A failing stage phase: the first entry whose source is missing stops
the run with an error naming that source; the entries before it stay
staged under their temporaries, nothing after it is touched. -/
theorem stagePhase_fail (uuids : Nat → Name) :
    ∀ (pre : List (Name × Name)) (o n : Name) (post : List (Name × Name))
      (k : Nat) (fs : Finset Name),
      (pre.map Prod.fst).Nodup →
      (∀ e ∈ pre, e.1 ∈ fs) →
      (tempNames uuids k pre).Nodup →
      (∀ t ∈ tempNames uuids k pre, t ∉ fs) →
      o ∉ fs →
      o ∉ tempNames uuids k pre →
      ∃ fsMid, stagePhase uuids (pre ++ (o, n) :: post) k fs = .error ⟨o, fsMid⟩ ∧
        ∀ x, x ∈ fsMid ↔
          ((x ∈ fs ∧ x ∉ pre.map Prod.fst) ∨ x ∈ tempNames uuids k pre) := by
  intro pre
  induction pre with
  | nil =>
    intro o n post k fs _ _ _ _ ho _
    refine ⟨fs, ?_, by simp [tempNames]⟩
    rw [List.nil_append]
    unfold stagePhase osRename
    rw [if_neg ho]
  | cons e pre' ih =>
    obtain ⟨a, b⟩ := e
    intro o n post k fs hnd hmem htnd htfs ho hot
    simp only [tempNames, List.map_cons, List.cons_append] at htnd htfs hnd hot ⊢
    have ha : a ∈ fs := hmem (a, b) (List.mem_cons_self _ _)
    have htn_fs : tempName a (uuids k) ∉ fs := htfs _ (List.mem_cons_self _ _)
    obtain ⟨ha_rest, hnd1⟩ := List.nodup_cons.mp hnd
    obtain ⟨htn_rest, htnd1⟩ := List.nodup_cons.mp htnd
    have f1 : tempName a (uuids k) ∉ pre'.map Prod.fst := by
      intro hc
      obtain ⟨e, he, heq⟩ := List.mem_map.mp hc
      exact htn_fs (heq ▸ hmem e (List.mem_cons_of_mem _ he))
    have hot1 : o ∉ tempNames uuids (k + 1) pre' := by
      intro hc
      exact hot (List.mem_cons_of_mem _ hc)
    have hone : o ≠ tempName a (uuids k) := by
      intro hc
      exact hot (by rw [hc]; exact List.mem_cons_self _ _)
    obtain ⟨fsMid, hfail, hchar⟩ :=
      ih o n post (k + 1) (insert (tempName a (uuids k)) (fs.erase a))
        hnd1
        (by
          intro e he
          have he1 : e.1 ∈ fs := hmem e (List.mem_cons_of_mem _ he)
          have hne : e.1 ≠ a := by
            intro hc
            exact ha_rest (hc ▸ List.mem_map_of_mem Prod.fst he)
          exact Finset.mem_insert.mpr (Or.inr (Finset.mem_erase.mpr ⟨hne, he1⟩)))
        htnd1
        (by
          intro t ht hc
          rcases Finset.mem_insert.mp hc with hc | hc
          · exact htn_rest (hc ▸ ht)
          · exact htfs t (List.mem_cons_of_mem _ ht) (Finset.mem_of_mem_erase hc))
        (by
          intro hc
          rcases Finset.mem_insert.mp hc with hc | hc
          · exact hone hc
          · exact ho (Finset.mem_of_mem_erase hc))
        hot1
    refine ⟨fsMid, ?_, ?_⟩
    · unfold stagePhase osRename
      rw [if_pos ha]
      dsimp only
      rw [hfail]
    · intro x
      rw [hchar x]
      simp only [Finset.mem_insert, Finset.mem_erase, List.mem_cons]
      constructor
      · rintro (⟨(rfl | ⟨hne, hxfs⟩), hx2⟩ | hx)
        · exact Or.inr (Or.inl rfl)
        · refine Or.inl ⟨hxfs, ?_⟩
          rintro (rfl | hc)
          · exact hne rfl
          · exact hx2 hc
        · exact Or.inr (Or.inr hx)
      · rintro (⟨hxfs, hxk⟩ | (rfl | hx))
        · exact Or.inl ⟨Or.inr ⟨fun hc => hxk (Or.inl hc), hxfs⟩,
            fun hc => hxk (Or.inr hc)⟩
        · exact Or.inl ⟨Or.inl rfl, f1⟩
        · exact Or.inr hx

theorem swap_swap (l : List (Name × Name)) :
    (l.map (fun p => (p.2, p.1))).map (fun p => (p.2, p.1)) = l := by
  induction l with
  | nil => rfl
  | cons e rest ih => obtain ⟨a, b⟩ := e; simp [ih]

/-- Claim C7: if a rename fails during the stage phase of `rename_run`
or of `reverse_rename_run` (the source to stage is missing), the run
fails with an error carrying the failing path, every already-staged
file remains present under its temporary name, no rollback happens, and
no further rename is attempted — the state at failure is exactly the
initial state with the earlier sources replaced by their temporaries. -/
theorem c7_stage_failure_no_rollback (uuids : Nat → Name)
    (pre post : List (Name × Name)) (o n : Name) (fs : Finset Name)
    (hnd : (pre.map Prod.fst).Nodup)
    (hmem : ∀ e ∈ pre, e.1 ∈ fs)
    (htnd : (tempNames uuids 0 pre).Nodup)
    (htfs : ∀ t ∈ tempNames uuids 0 pre, t ∉ fs)
    (ho : o ∉ fs) (hot : o ∉ tempNames uuids 0 pre) :
    (∃ fsMid, rename_run (pre ++ (o, n) :: post) uuids fs = .error ⟨o, fsMid⟩ ∧
      (∀ t ∈ tempNames uuids 0 pre, t ∈ fsMid) ∧
      ∀ x, x ∈ fsMid ↔
        ((x ∈ fs ∧ x ∉ pre.map Prod.fst) ∨ x ∈ tempNames uuids 0 pre)) ∧
    (∃ fsMid,
      reverse_rename_run ((pre ++ (o, n) :: post).map (fun p => (p.2, p.1)))
          uuids fs = .error ⟨o, fsMid⟩ ∧
      (∀ t ∈ tempNames uuids 0 pre, t ∈ fsMid) ∧
      ∀ x, x ∈ fsMid ↔
        ((x ∈ fs ∧ x ∉ pre.map Prod.fst) ∨ x ∈ tempNames uuids 0 pre)) := by
  obtain ⟨fsMid, hfail, hchar⟩ :=
    stagePhase_fail uuids pre o n post 0 fs hnd hmem htnd htfs ho hot
  have hrun : rename_run (pre ++ (o, n) :: post) uuids fs = .error ⟨o, fsMid⟩ := by
    unfold rename_run
    rw [hfail]
  have hstay : ∀ t ∈ tempNames uuids 0 pre, t ∈ fsMid :=
    fun t htm => (hchar t).mpr (Or.inr htm)
  refine ⟨⟨fsMid, hrun, hstay, hchar⟩, ⟨fsMid, ?_, hstay, hchar⟩⟩
  unfold reverse_rename_run
  have hswap : ((pre ++ (o, n) :: post).map (fun p => (p.2, p.1))).map
      (fun p => (p.2, p.1)) = pre ++ (o, n) :: post := swap_swap _
  rw [hswap]
  exact hrun

/-- Witness for C7: the plan `a.txt ↦ b.txt, c.txt ↦ d.txt` on a
directory containing only `a.txt`: the second stage rename fails on the
missing `c.txt` while `a.txt` stays under its temporary name. -/
theorem c7_stage_failure_no_rollback_witness :
    (∃ fsMid,
      rename_run ([("a.txt".data, "b.txt".data)] ++ ("c.txt".data, "d.txt".data) :: [])
          (fun k => natStr k) {"a.txt".data}
        = .error ⟨"c.txt".data, fsMid⟩ ∧
      (∀ t ∈ tempNames (fun k => natStr k) 0 [("a.txt".data, "b.txt".data)],
        t ∈ fsMid) ∧
      ∀ x, x ∈ fsMid ↔
        ((x ∈ ({"a.txt".data} : Finset Name) ∧
          x ∉ [("a.txt".data, "b.txt".data)].map (Prod.fst (α := Name) (β := Name))) ∨
          x ∈ tempNames (fun k => natStr k) 0 [("a.txt".data, "b.txt".data)])) ∧
    (∃ fsMid,
      reverse_rename_run
          (([("a.txt".data, "b.txt".data)] ++ ("c.txt".data, "d.txt".data) :: []).map
            (fun p => (p.2, p.1)))
          (fun k => natStr k) {"a.txt".data}
        = .error ⟨"c.txt".data, fsMid⟩ ∧
      (∀ t ∈ tempNames (fun k => natStr k) 0 [("a.txt".data, "b.txt".data)],
        t ∈ fsMid) ∧
      ∀ x, x ∈ fsMid ↔
        ((x ∈ ({"a.txt".data} : Finset Name) ∧
          x ∉ [("a.txt".data, "b.txt".data)].map (Prod.fst (α := Name) (β := Name))) ∨
          x ∈ tempNames (fun k => natStr k) 0 [("a.txt".data, "b.txt".data)])) :=
  c7_stage_failure_no_rollback (fun k => natStr k)
    [("a.txt".data, "b.txt".data)] [] "c.txt".data "d.txt".data {"a.txt".data}
    (by decide) (by decide) (by decide) (by decide) (by decide) (by decide)

/-! ## Lemmas: pathlib path strings round-trip through store and load -/

theorem splitOnChar_ne_nil (sep : Char) : ∀ s : Name, splitOnChar sep s ≠ [] := by
  intro s
  induction s with
  | nil => simp [splitOnChar]
  | cons c rest ih =>
    unfold splitOnChar
    cases h : splitOnChar sep rest with
    | nil => exact absurd h ih
    | cons a as =>
      by_cases hc : c = sep
      · simp [hc]
      · simp [hc]

theorem splitOnChar_sep_cons (sep : Char) (t : Name) :
    splitOnChar sep (sep :: t) = [] :: splitOnChar sep t := by
  cases h : splitOnChar sep t with
  | nil => exact absurd h (splitOnChar_ne_nil sep t)
  | cons a as =>
    unfold splitOnChar
    rw [h]
    simp

theorem splitOnChar_seg_append (sep : Char) :
    ∀ (seg : Name), (∀ c ∈ seg, c ≠ sep) →
      ∀ (t : Name) (a : Name) (as : List Name),
        splitOnChar sep t = a :: as →
        splitOnChar sep (seg ++ t) = (seg ++ a) :: as := by
  intro seg
  induction seg with
  | nil =>
    intro _ t a as h
    simp only [List.nil_append]
    exact h
  | cons c seg' ih =>
    intro hseg t a as h
    have hc : c ≠ sep := hseg c (List.mem_cons_self _ _)
    have h' := ih (fun d hd => hseg d (List.mem_cons_of_mem _ hd)) t a as h
    rw [List.cons_append]
    unfold splitOnChar
    rw [h']
    simp [hc]

theorem splitOnChar_replicate_append (sep : Char) :
    ∀ (r : Nat) (t : Name),
      splitOnChar sep (List.replicate r sep ++ t)
        = List.replicate r [] ++ splitOnChar sep t := by
  intro r
  induction r with
  | zero => intro t; simp
  | succ r ih =>
    intro t
    rw [List.replicate_succ, List.cons_append, splitOnChar_sep_cons, ih,
      List.replicate_succ, List.cons_append]

theorem intercalate_cons_cons (s a b : Name) (l : List Name) :
    List.intercalate s (a :: b :: l) = a ++ s ++ List.intercalate s (b :: l) := by
  simp [List.intercalate, List.intersperse]

theorem intercalate_head (s p0 : Name) (ps : List Name) :
    ∃ rest, List.intercalate s (p0 :: ps) = p0 ++ rest := by
  cases ps with
  | nil => exact ⟨[], by rw [intercalate_singleton, List.append_nil]⟩
  | cons b l => exact ⟨s ++ List.intercalate s (b :: l),
      by rw [intercalate_cons_cons, List.append_assoc]⟩

theorem splitOnChar_intercalate (sep : Char) :
    ∀ (ps : List Name) (p0 : Name),
      (∀ seg ∈ p0 :: ps, ∀ c ∈ seg, c ≠ sep) →
      splitOnChar sep (List.intercalate [sep] (p0 :: ps)) = p0 :: ps := by
  intro ps
  induction ps with
  | nil =>
    intro p0 hseg
    rw [intercalate_singleton]
    have := splitOnChar_seg_append sep p0
      (hseg p0 (List.mem_cons_self _ _)) [] [] [] rfl
    simpa using this
  | cons p1 ps' ih =>
    intro p0 hseg
    rw [intercalate_cons_cons, List.append_assoc, List.singleton_append]
    have hrec := ih p1 (fun seg hs c hc =>
      hseg seg (List.mem_cons_of_mem _ hs) c hc)
    have hsepcons := splitOnChar_sep_cons sep (List.intercalate [sep] (p1 :: ps'))
    rw [hrec] at hsepcons
    have := splitOnChar_seg_append sep p0 (hseg p0 (List.mem_cons_self _ _))
      (sep :: List.intercalate [sep] (p1 :: ps')) [] (p1 :: ps') hsepcons
    simpa using this

theorem takeWhile_replicate (c : Char) (r : Nat) :
    (List.replicate r c).takeWhile (fun d => d == c) = List.replicate r c := by
  induction r with
  | zero => rfl
  | succ r ih => rw [List.replicate_succ, List.takeWhile_cons]; simp [ih]

/-- `str(PurePosixPath(...))` parses back to the same `PyPath` for every
well-formed path value. -/
theorem parsePath_renderPath {p : PyPath} (h : WFPath p) :
    parsePath (renderPath p) = p := by
  obtain ⟨root, parts⟩ := p
  obtain ⟨hroot, hparts⟩ := h
  cases parts with
  | nil =>
    simp only at hroot
    interval_cases root <;> decide
  | cons p0 ps =>
    have hp0 := hparts p0 (List.mem_cons_self _ _)
    obtain ⟨c, p0', hc⟩ := List.exists_cons_of_ne_nil hp0.1
    have hcs : c ≠ '/' := by
      intro heq
      exact hp0.2.2 (by rw [hc, heq]; exact List.mem_cons_self _ _)
    have hrender : renderPath ⟨root, p0 :: ps⟩
        = List.replicate root '/' ++ List.intercalate ['/'] (p0 :: ps) := by
      unfold renderPath
      rw [if_neg (by simp)]
    obtain ⟨rest, hinter⟩ := intercalate_head ['/'] p0 ps
    have htake : (List.replicate root '/'
          ++ List.intercalate ['/'] (p0 :: ps)).takeWhile (fun d => d == '/')
        = List.replicate root '/' := by
      rw [hinter, hc, List.cons_append]
      exact takeWhile_append_stop _ _
        (fun d hd => by rw [List.eq_of_mem_replicate hd]; rfl)
        (by simp [hcs])
    have hsplit : splitOnChar '/' (List.replicate root '/'
          ++ List.intercalate ['/'] (p0 :: ps))
        = List.replicate root [] ++ (p0 :: ps) := by
      rw [splitOnChar_replicate_append]
      rw [splitOnChar_intercalate '/' ps p0
        (fun seg hs d hd => fun hdeq => (hparts seg hs).2.2 (hdeq ▸ hd))]
    unfold parsePath
    rw [hrender, htake, hsplit]
    have hfilter : (List.replicate root [] ++ (p0 :: ps)).filter
          (fun seg => !(seg == []) && !(seg == ['.']))
        = p0 :: ps := by
      rw [List.filter_append]
      have h1 : (List.replicate root ([] : Name)).filter
          (fun seg => !(seg == []) && !(seg == ['.'])) = [] := by
        apply List.filter_eq_nil_iff.mpr
        intro seg hs
        rw [List.eq_of_mem_replicate hs]
        decide
      have h2 : (p0 :: ps).filter (fun seg => !(seg == []) && !(seg == ['.']))
          = p0 :: ps := by
        apply List.filter_eq_self.mpr
        intro seg hs
        have hseg := hparts seg hs
        simp [hseg.1, hseg.2.1]
      rw [h1, h2, List.nil_append]
    rw [hfilter]
    simp only [List.length_replicate, PyPath.mk.injEq, and_true]
    interval_cases root <;> rfl

/-- Claim C8: storing a mapping with `save_rename_plan_json` and loading
it back through the reverse-run branch of `cli_run` is the identity on
the mapping — the loaded path pairs equal the stored ones, so in
particular their path strings are identical. -/
theorem c8_store_load_roundtrip (rename_plan : List (PyPath × PyPath))
    (h : ∀ e ∈ rename_plan, WFPath e.1 ∧ WFPath e.2) :
    cli_load_backup (save_rename_plan_json rename_plan) = rename_plan ∧
    save_rename_plan_json (cli_load_backup (save_rename_plan_json rename_plan))
      = save_rename_plan_json rename_plan := by
  have h1 : cli_load_backup (save_rename_plan_json rename_plan) = rename_plan := by
    unfold cli_load_backup save_rename_plan_json
    induction rename_plan with
    | nil => rfl
    | cons e rest ih =>
      obtain ⟨he, hrest⟩ := List.forall_mem_cons.mp h
      simp only [List.map_cons, List.cons.injEq]
      refine ⟨?_, ih hrest⟩
      rw [parsePath_renderPath he.1, parsePath_renderPath he.2]
  exact ⟨h1, by rw [h1]⟩

/-- Witness for C8 at a concrete two-entry plan of absolute paths. -/
theorem c8_store_load_roundtrip_witness :
    cli_load_backup (save_rename_plan_json
        [(parsePath "/photos/a.txt".data, parsePath "/photos/IMG_01.jpg".data),
         (parsePath "photos/b.txt".data, parsePath "photos/IMG_02.jpg".data)])
      = [(parsePath "/photos/a.txt".data, parsePath "/photos/IMG_01.jpg".data),
         (parsePath "photos/b.txt".data, parsePath "photos/IMG_02.jpg".data)] :=
  (c8_store_load_roundtrip
    [(parsePath "/photos/a.txt".data, parsePath "/photos/IMG_01.jpg".data),
     (parsePath "photos/b.txt".data, parsePath "photos/IMG_02.jpg".data)]
    (by decide)).1
